import Mathlib

/-!
Shallow embedding of the storage-synchronization core of the Local Vault
Manager (src/unnamed/part_000 together with types.ts).  The browser store
(`localStorage`) is modelled as an ordered association list with
last-write-wins updates; the React component state is the record
`AppState`.  Two sources of environment behaviour are made explicit
parameters:
* the random id produced by `generateId` (Math.random based) is passed in
  as a plain string argument wherever the source calls `generateId()`;
* the locale-aware comparison used by `key.localeCompare` is passed in as
  a boolean relation `le : String → String → Bool`.
-/

namespace LocalVault

/-- types.ts `KeyValuePair`: one draft row of the edit buffer. -/
structure KeyValuePair where
  id : String
  key : String
  value : String
deriving DecidableEq, Repr

/-- types.ts `LocalStorageItem`: one entry of the stored-items projection. -/
structure LocalStorageItem where
  key : String
  value : String
  size : Nat
deriving DecidableEq, Repr

/-- Severity of a notification, the `type` field of the inline record. -/
inductive NotifType where
  | success
  | error
deriving DecidableEq, Repr

/-- The `notification` state record `{ message, type }`. -/
structure Notif where
  message : String
  type : NotifType
deriving DecidableEq, Repr

/-- JavaScript `String.prototype.trim`: drop leading and trailing
whitespace, keeping the middle verbatim. -/
def trimStr (s : String) : String :=
  ⟨((s.data.dropWhile Char.isWhitespace).reverse.dropWhile Char.isWhitespace).reverse⟩

/-- The external store, modelled as an ordered association list; browser
`localStorage` keeps one value per key, and `setItem` updates in place. -/
abbrev Store := List (String × String)

/-- `localStorage.getItem(k)`: the value stored at `k`, if any. -/
def getItem (s : Store) (k : String) : Option String :=
  (List.find? (fun p => p.1 == k) s).map (fun p => p.2)

/-- `localStorage.setItem(k, v)`: overwrite the value at `k` in place when
the key exists, otherwise append the new pair. -/
def setItem (k v : String) (s : Store) : Store :=
  if List.any s (fun p => p.1 == k) then
    List.map (fun p => if p.1 == k then (k, v) else p) s
  else s ++ [(k, v)]

/-- `localStorage.removeItem(k)`. -/
def removeItem (k : String) (s : Store) : Store :=
  List.filter (fun p => p.1 != k) s

/-- The keys of the store, in enumeration order. -/
def storeKeys (s : Store) : List String := List.map (fun p => p.1) s

/-- The storage interface that `refreshStoredItems` reads:
`localStorage.length`, `localStorage.key(i)` (absent out of range) and
`localStorage.getItem(key)` (absent when the key is missing). -/
structure StoreIface where
  count : Nat
  keyAt : Nat → Option String
  read : String → Option String

/-- The interface view of a concrete store list. -/
def ofStore (s : Store) : StoreIface :=
  ⟨List.length s, fun i => (s[i]?).map (fun p => p.1), getItem s⟩

/-- The loop body of `refreshStoredItems`: for each index `i`, look up the
key; skip absent keys; default an absent value to `''` (the `|| ''`); the
`size` field is `new Blob([key + value]).size`, i.e. the UTF-8 byte length
of the concatenation. -/
def mkEntry (read : String → Option String) (key : String) :
    LocalStorageItem :=
  ⟨key, (read key).getD "", (key ++ (read key).getD "").utf8ByteSize⟩

def buildItems (st : StoreIface) : List LocalStorageItem :=
  (List.range st.count).filterMap (fun i =>
    (st.keyAt i).map (mkEntry st.read))

/-- The comparator `(a, b) => a.key.localeCompare(b.key)` as a relation on
items, for a given string comparison `le`. -/
abbrev itemLE (le : String → String → Bool) (a b : LocalStorageItem) : Prop :=
  le a.key b.key = true

/-- `refreshStoredItems`: rebuild the projection from the store and sort
it ascending by key (`items.sort((a, b) => a.key.localeCompare(b.key))`,
a stable sort). -/
def refreshStoredItems (le : String → String → Bool) (st : StoreIface) :
    List LocalStorageItem :=
  List.insertionSort (itemLE le) (buildItems st)

/-- The initial edit buffer: one empty draft row (with the id that
`generateId()` returned for it). -/
def initialInputs (i : String) : List KeyValuePair :=
  [⟨i, "", ""⟩]

/-- `addRow`: append one new empty draft row carrying the id `i` that
`generateId()` produced for it. -/
def addRow (i : String) (b : List KeyValuePair) : List KeyValuePair :=
  b ++ [⟨i, "", ""⟩]

/-- `removeRow(id)`: when more than one row is present, keep the rows
whose id differs from `id`; otherwise do nothing. -/
def removeRow (i : String) (b : List KeyValuePair) : List KeyValuePair :=
  if 1 < List.length b then List.filter (fun r => r.id != i) b else b

/-- An edit-buffer event: the user pressing "Add Another Row" (with the id
the generator returned) or a row's delete button. -/
inductive Op where
  | add (i : String)
  | remove (i : String)
deriving DecidableEq, Repr

/-- Apply one buffer event. -/
def applyOp (b : List KeyValuePair) : Op → List KeyValuePair
  | Op.add i => addRow i b
  | Op.remove i => removeRow i b

/-- Apply a sequence of buffer events, oldest first. -/
def applyOps (ops : List Op) (b : List KeyValuePair) : List KeyValuePair :=
  List.foldl applyOp b ops

/-- The ids consumed by the `add` events of a sequence, in order. -/
def addIds : List Op → List String
  | [] => []
  | Op.add i :: rest => i :: addIds rest
  | Op.remove _ :: rest => addIds rest

/-- The guard `if (row.key.trim())`: a row is written iff its trimmed key
is non-empty. -/
def qualifies (r : KeyValuePair) : Bool :=
  trimStr r.key != ""

/-- The `(trimmed key, untrimmed value)` pairs that `saveToLocalStorage`
sends to the store, in buffer order; non-qualifying rows are skipped. -/
def writesOf (rows : List KeyValuePair) : List (String × String) :=
  rows.filterMap (fun r =>
    if qualifies r then some (trimStr r.key, r.value) else none)

/-- Replay a list of writes against a store, first to last. -/
def applyWrites (s : Store) (ws : List (String × String)) : Store :=
  List.foldl (fun t kv => setItem kv.1 kv.2 t) s ws

/-- One iteration of the write loop of `saveToLocalStorage`: call
`setItem(key.trim(), value)` and bump `count` when the row qualifies. -/
def saveStep (acc : Store × Nat) (r : KeyValuePair) : Store × Nat :=
  if qualifies r then (setItem (trimStr r.key) r.value acc.1, acc.2 + 1)
  else acc

/-- The write loop of `saveToLocalStorage`: fold `saveStep` over the
buffer starting from the current store and a zero count. -/
def saveFold (rows : List KeyValuePair) (s : Store) : Store × Nat :=
  List.foldl saveStep (s, 0) rows

/-- The last value written to key `q` by a list of writes, if any. -/
def lastVal : List (String × String) → String → Option String
  | [], _ => none
  | (k, v) :: rest, q =>
    match lastVal rest q with
    | some x => some x
    | none => if k == q then some v else none

/-- The React component state: draft rows, the stored-items projection,
the current notification and (made explicit) the backing store. -/
structure AppState where
  inputs : List KeyValuePair
  storedItems : List LocalStorageItem
  notif : Option Notif
  store : Store

/-- `saveToLocalStorage`: run the write loop; on a positive count show the
success notification, refresh the projection from the updated store and
reset the buffer to one empty row (id `freshId`); on a zero count show the
error notification and keep buffer and projection. -/
def saveToLocalStorage (le : String → String → Bool) (freshId : String)
    (st : AppState) : AppState :=
  let res := saveFold st.inputs st.store
  if 0 < res.2 then
    { inputs := initialInputs freshId,
      storedItems := refreshStoredItems le (ofStore res.1),
      notif := some ⟨"Successfully saved " ++ toString res.2 ++ " item(s)",
                     NotifType.success⟩,
      store := res.1 }
  else
    { st with
      notif := some ⟨"Please enter at least one key", NotifType.error⟩,
      store := res.1 }

/-- `deleteItem(key)`: remove the key from the store, refresh the
projection and show the success notification naming the key. -/
def deleteItem (le : String → String → Bool) (k : String) (st : AppState) :
    AppState :=
  let s := removeItem k st.store
  { st with
    store := s,
    storedItems := refreshStoredItems le (ofStore s),
    notif := some ⟨"Deleted \"" ++ k ++ "\"", NotifType.success⟩ }

/-- The refresh entry point at state level: replace the projection
wholesale with the freshly computed one. -/
def doRefresh (le : String → String → Bool) (st : AppState) : AppState :=
  { st with storedItems := refreshStoredItems le (ofStore st.store) }

/-- A concrete computable string comparison (code-point lexicographic),
used to instantiate the locale comparison in concrete runs. -/
def charListLe : List Char → List Char → Bool
  | [], _ => true
  | _ :: _, [] => false
  | a :: as, b :: bs =>
    if a.toNat < b.toNat then true
    else if b.toNat < a.toNat then false
    else charListLe as bs

/-- Code-point lexicographic comparison of strings. -/
def keyLe (a b : String) : Bool := charListLe a.data b.data

/-! Basic facts about the save loop. -/

theorem foldl_saveStep (rows : List KeyValuePair) :
    ∀ (s : Store) (n : Nat),
      List.foldl saveStep (s, n) rows =
        (applyWrites s (writesOf rows), n + (rows.filter qualifies).length) := by
  induction rows with
  | nil => intro s n; simp [applyWrites, writesOf]
  | cons r rest ih =>
    intro s n
    by_cases h : qualifies r
    · simp only [List.foldl_cons, saveStep, h, if_true]
      rw [ih]
      simp [writesOf, applyWrites, h, List.filter_cons]
      omega
    · simp only [List.foldl_cons, saveStep, h, if_false]
      rw [ih]
      simp [writesOf, applyWrites, h, List.filter_cons]

theorem saveFold_eq (rows : List KeyValuePair) (s : Store) :
    saveFold rows s =
      (applyWrites s (writesOf rows), (rows.filter qualifies).length) := by
  simpa using foldl_saveStep rows s 0

theorem writesOf_eq_nil (rows : List KeyValuePair)
    (h : ∀ r ∈ rows, qualifies r = false) : writesOf rows = [] := by
  induction rows with
  | nil => rfl
  | cons r rest ih =>
    simp only [writesOf, List.filterMap_cons, h r (by simp)]
    exact ih fun x hx => h x (by simp [hx])

/-- C2: when every draft row's key trims to the empty string, `save()`
emits the error notification and leaves the buffer, the projection and
the store untouched. -/
theorem save_error_preserves_state (le : String → String → Bool)
    (fid : String) (st : AppState)
    (h : ∀ r ∈ st.inputs, trimStr r.key = "") :
    (saveToLocalStorage le fid st).inputs = st.inputs ∧
    (saveToLocalStorage le fid st).store = st.store ∧
    (saveToLocalStorage le fid st).storedItems = st.storedItems ∧
    (saveToLocalStorage le fid st).notif =
      some ⟨"Please enter at least one key", NotifType.error⟩ := by
  have hq : ∀ r ∈ st.inputs, qualifies r = false := by
    intro r hr; simp [qualifies, h r hr]
  have hw : writesOf st.inputs = [] := writesOf_eq_nil _ hq
  have hf : st.inputs.filter qualifies = [] := by
    rw [List.filter_eq_nil_iff]
    intro r hr; simp [hq r hr]
  simp [saveToLocalStorage, saveFold_eq, hw, hf, applyWrites]

/-- Witness for C2 at a concrete whitespace-only buffer. -/
theorem save_error_preserves_state_witness :
    (∀ r ∈ (⟨[⟨"a", "  ", "x"⟩], [], none, [("k", "v")]⟩ : AppState).inputs,
        trimStr r.key = "") ∧
    ((saveToLocalStorage keyLe "f"
        (⟨[⟨"a", "  ", "x"⟩], [], none, [("k", "v")]⟩ : AppState)).inputs =
      [⟨"a", "  ", "x"⟩] ∧
     (saveToLocalStorage keyLe "f"
        (⟨[⟨"a", "  ", "x"⟩], [], none, [("k", "v")]⟩ : AppState)).store =
      [("k", "v")] ∧
     (saveToLocalStorage keyLe "f"
        (⟨[⟨"a", "  ", "x"⟩], [], none, [("k", "v")]⟩ : AppState)).storedItems =
      [] ∧
     (saveToLocalStorage keyLe "f"
        (⟨[⟨"a", "  ", "x"⟩], [], none, [("k", "v")]⟩ : AppState)).notif =
      some ⟨"Please enter at least one key", NotifType.error⟩) :=
  ⟨by decide,
   save_error_preserves_state keyLe "f"
     (⟨[⟨"a", "  ", "x"⟩], [], none, [("k", "v")]⟩ : AppState) (by decide)⟩

/-! The edit-buffer row invariant. -/

/-- C3 counterexample: when the id generator repeats an id ("a" for the
initial row and again for the added row), `removeRow` deletes both rows
at once and the buffer becomes empty. -/
theorem removeRow_can_empty_buffer :
    (applyOps [Op.add "a", Op.remove "a"] (initialInputs "a")).length = 0 := by
  decide

theorem applyOps_cons (op : Op) (ops : List Op) (b : List KeyValuePair) :
    applyOps (op :: ops) b = applyOps ops (applyOp b op) := rfl

theorem removeRow_ids_sublist (i : String) (b : List KeyValuePair) :
    List.Sublist ((removeRow i b).map (fun r => r.id))
      (b.map (fun r => r.id)) := by
  unfold removeRow
  split
  · exact (List.filter_sublist b).map _
  · exact List.Sublist.refl _

theorem filter_ne_length_ge (b : List KeyValuePair) (i : String)
    (hnd : (b.map (fun r => r.id)).Nodup) (hlen : 2 ≤ b.length) :
    1 ≤ (b.filter (fun r => r.id != i)).length := by
  have hsplit :=
    List.length_eq_countP_add_countP (fun r : KeyValuePair => r.id != i) b
  have hpred : (fun a : KeyValuePair => decide ¬((a.id != i) = true)) =
      (fun a : KeyValuePair => a.id == i) := by
    funext a
    by_cases h : a.id = i <;> simp [h, bne]
  rw [hpred] at hsplit
  have hcount : List.countP (fun a : KeyValuePair => a.id == i) b =
      List.count i (b.map (fun r => r.id)) := by
    rw [List.count_eq_countP, List.countP_map]
    rfl
  have hle1 : List.count i (b.map (fun r => r.id)) ≤ 1 :=
    List.nodup_iff_count_le_one.mp hnd i
  have hfilter : List.countP (fun r : KeyValuePair => r.id != i) b =
      (b.filter (fun r => r.id != i)).length :=
    List.countP_eq_length_filter _ b
  omega

theorem applyOps_length_ge_one (ops : List Op) :
    ∀ b : List KeyValuePair,
      1 ≤ b.length →
      ((b.map (fun r => r.id)) ++ addIds ops).Nodup →
      1 ≤ (applyOps ops b).length := by
  induction ops with
  | nil => intro b hb _; simpa [applyOps] using hb
  | cons op rest ih =>
    intro b hb hnd
    cases op with
    | add i =>
      rw [applyOps_cons]
      apply ih (addRow i b)
      · simp [addRow, applyOp]
      · show ((addRow i b).map (fun r => r.id) ++ addIds rest).Nodup
        simp only [addRow, List.map_append, List.map_cons, List.map_nil]
        simpa [addIds, List.append_assoc] using hnd
    | remove i =>
      rw [applyOps_cons]
      have hnd' : ((removeRow i b).map (fun r => r.id) ++ addIds rest).Nodup := by
        have hsub :
            List.Sublist ((removeRow i b).map (fun r => r.id) ++ addIds rest)
              (b.map (fun r => r.id) ++ addIds rest) :=
          (removeRow_ids_sublist i b).append (List.Sublist.refl _)
        exact hsub.nodup (by simpa [addIds] using hnd)
      apply ih (removeRow i b) _ hnd'
      unfold removeRow
      split
      · next hlt =>
        exact filter_ne_length_ge b i hnd.of_append_left (by omega)
      · exact hb

/-- C3 (amended): as long as the ids handed out by the generator are
pairwise distinct, no sequence of `addRow`/`removeRow` events can shrink
the buffer below one row; independently, `removeRow` on a one-row buffer
is always a no-op. -/
theorem buffer_never_empty (i0 : String) (ops : List Op) (i : String)
    (b : List KeyValuePair)
    (hids : (i0 :: addIds ops).Nodup) (hb : b.length = 1) :
    1 ≤ (applyOps ops (initialInputs i0)).length ∧ removeRow i b = b := by
  constructor
  · apply applyOps_length_ge_one ops (initialInputs i0)
    · simp [initialInputs]
    · simpa [initialInputs] using hids
  · unfold removeRow
    rw [if_neg]
    omega

/-- Witness for C3 (amended) at a concrete event sequence. -/
theorem buffer_never_empty_witness :
    ((("a" : String) :: addIds [Op.add "b", Op.remove "a"]).Nodup ∧
      ([(⟨"x", "k", "v"⟩ : KeyValuePair)]).length = 1) ∧
    (1 ≤ (applyOps [Op.add "b", Op.remove "a"] (initialInputs "a")).length ∧
      removeRow "z" [(⟨"x", "k", "v"⟩ : KeyValuePair)] =
        [(⟨"x", "k", "v"⟩ : KeyValuePair)]) :=
  ⟨⟨by decide, by decide⟩,
   buffer_never_empty "a" [Op.add "b", Op.remove "a"] "z"
     [(⟨"x", "k", "v"⟩ : KeyValuePair)] (by decide) (by decide)⟩

/-! Facts about addRow and the initial buffer. -/

/-- C9 counterexample: `addRow` performs no uniqueness check, so when the
generator repeats the id "a" the new row's id collides with the existing
row's id. -/
theorem addRow_duplicate_id_cex :
    ¬ (((addRow "a" (initialInputs "a")).map (fun r => r.id)).Nodup) := by
  decide

/-- C9 (amended): the buffer starts as exactly one empty draft row;
`addRow` appends exactly one new empty draft row carrying the generated
id, with no bound on the row count; the ids stay pairwise distinct
provided the generated id does not collide with an existing one. -/
theorem addRow_spec (i : String) (b : List KeyValuePair)
    (hfresh : i ∉ b.map (fun r => r.id))
    (hnd : (b.map (fun r => r.id)).Nodup) :
    initialInputs i = [⟨i, "", ""⟩] ∧
    addRow i b = b ++ [⟨i, "", ""⟩] ∧
    (addRow i b).length = b.length + 1 ∧
    ((addRow i b).map (fun r => r.id)).Nodup := by
  refine ⟨rfl, rfl, by simp [addRow], ?_⟩
  simp only [addRow, List.map_append, List.map_cons, List.map_nil]
  rw [List.nodup_append]
  exact ⟨hnd, List.nodup_singleton i, by simpa using fun h => hfresh h⟩

/-- Witness for C9 (amended) at a concrete buffer and fresh id. -/
theorem addRow_spec_witness :
    ((("b" : String) ∉ ([⟨"a", "x", "y"⟩] : List KeyValuePair).map
        (fun r => r.id)) ∧
      (([⟨"a", "x", "y"⟩] : List KeyValuePair).map (fun r => r.id)).Nodup) ∧
    (initialInputs "b" = [⟨"b", "", ""⟩] ∧
      addRow "b" [⟨"a", "x", "y"⟩] =
        ([⟨"a", "x", "y"⟩] : List KeyValuePair) ++ [⟨"b", "", ""⟩] ∧
      (addRow "b" [⟨"a", "x", "y"⟩]).length =
        ([⟨"a", "x", "y"⟩] : List KeyValuePair).length + 1 ∧
      ((addRow "b" [⟨"a", "x", "y"⟩]).map (fun r => r.id)).Nodup) :=
  ⟨⟨by decide, by decide⟩,
   addRow_spec "b" [⟨"a", "x", "y"⟩] (by decide) (by decide)⟩

/-! The save action. -/

/-- C1: `save()` sends to the store exactly the `(trimmed key, untrimmed
value)` pair of each row whose key trims non-empty, in buffer order,
skipping the others; and since at least one row qualifies here, it shows
the success notification with the count of written rows, refreshes the
projection from the updated store and resets the buffer to one empty
row. -/
theorem saveToLocalStorage_spec (le : String → String → Bool) (fid : String)
    (st : AppState) (h : 0 < (st.inputs.filter qualifies).length) :
    (saveToLocalStorage le fid st).store =
      applyWrites st.store (writesOf st.inputs) ∧
    (saveToLocalStorage le fid st).notif =
      some ⟨"Successfully saved " ++
              toString (st.inputs.filter qualifies).length ++ " item(s)",
            NotifType.success⟩ ∧
    (saveToLocalStorage le fid st).storedItems =
      refreshStoredItems le
        (ofStore (applyWrites st.store (writesOf st.inputs))) ∧
    (saveToLocalStorage le fid st).inputs = initialInputs fid := by
  simp [saveToLocalStorage, saveFold_eq, h]

/-- Witness for C1 at the spec scenario: rows `theme=dark` and an
empty-key row; only `theme=dark` is written, the notification reads
"Successfully saved 1 item(s)" and the buffer resets. -/
theorem saveToLocalStorage_spec_witness :
    0 < ((⟨[⟨"r1", "theme", "dark"⟩, ⟨"r2", "", "x"⟩], [], none, []⟩ :
            AppState).inputs.filter qualifies).length ∧
    ((saveToLocalStorage keyLe "f"
        (⟨[⟨"r1", "theme", "dark"⟩, ⟨"r2", "", "x"⟩], [], none, []⟩ :
          AppState)).store = [("theme", "dark")] ∧
     (saveToLocalStorage keyLe "f"
        (⟨[⟨"r1", "theme", "dark"⟩, ⟨"r2", "", "x"⟩], [], none, []⟩ :
          AppState)).notif =
      some ⟨"Successfully saved 1 item(s)", NotifType.success⟩ ∧
     (saveToLocalStorage keyLe "f"
        (⟨[⟨"r1", "theme", "dark"⟩, ⟨"r2", "", "x"⟩], [], none, []⟩ :
          AppState)).storedItems = [⟨"theme", "dark", 9⟩] ∧
     (saveToLocalStorage keyLe "f"
        (⟨[⟨"r1", "theme", "dark"⟩, ⟨"r2", "", "x"⟩], [], none, []⟩ :
          AppState)).inputs = initialInputs "f") := by
  have h := saveToLocalStorage_spec keyLe "f"
    (⟨[⟨"r1", "theme", "dark"⟩, ⟨"r2", "", "x"⟩], [], none, []⟩ : AppState)
    (by decide)
  refine ⟨by decide, ?_, ?_, ?_, h.2.2.2⟩
  · rw [h.1]; decide
  · rw [h.2.1]; decide
  · rw [h.2.2.1]
    rw [show applyWrites
          ((⟨[⟨"r1", "theme", "dark"⟩, ⟨"r2", "", "x"⟩], [], none, []⟩ :
            AppState)).store
          (writesOf ((⟨[⟨"r1", "theme", "dark"⟩, ⟨"r2", "", "x"⟩], [], none,
            []⟩ : AppState)).inputs) = [("theme", "dark")] from by decide]
    decide

/-! Store lookup after writes. -/

theorem comp_fst_beq_repl (k v q : String) :
    ((fun p : String × String => p.1 == q) ∘
        (fun p : String × String => if p.1 == k then (k, v) else p)) =
      (fun p : String × String => p.1 == q) := by
  funext p
  by_cases hp : p.1 == k
  · have hpk : p.1 = k := by simpa using hp
    simp [Function.comp, hp, hpk]
  · simp [Function.comp, hp]

theorem getItem_setItem (k v q : String) (s : Store) :
    getItem (setItem k v s) q = if q = k then some v else getItem s q := by
  unfold setItem
  by_cases h : List.any s (fun p => p.1 == k)
  · rw [if_pos h]
    unfold getItem
    rw [List.find?_map, comp_fst_beq_repl]
    by_cases hq : q = k
    · subst hq
      obtain ⟨p0, hp0m, hp0⟩ := List.any_eq_true.mp h
      cases hf : s.find? (fun p => p.1 == q) with
      | none => exact absurd hp0 (List.find?_eq_none.mp hf p0 hp0m)
      | some p1 =>
        have h1 := List.find?_some hf
        have h1e : p1.1 = q := by simpa using h1
        simp [h1e]
    · cases hf : s.find? (fun p => p.1 == q) with
      | none => simp [hq]
      | some p1 =>
        have h1b := List.find?_some hf
        have h1 : p1.1 = q := by simpa using h1b
        have hp1 : (p1.1 == k) = false := by simp [h1, hq]
        simp [hq, hp1, h1]
  · rw [if_neg h]
    unfold getItem
    rw [List.find?_append]
    have hnone : s.find? (fun p => p.1 == k) = none :=
      List.find?_eq_none.mpr fun x hx hxk =>
        h (List.any_eq_true.mpr ⟨x, hx, hxk⟩)
    by_cases hq : q = k
    · subst hq
      rw [hnone]
      simp
    · have hkq : (k == q) = false := by simpa using Ne.symm hq
      cases hf : s.find? (fun p => p.1 == q) <;> simp [List.find?, hkq, hf, hq]

theorem getItem_applyWrites (ws : List (String × String)) :
    ∀ (s : Store) (q : String),
      getItem (applyWrites s ws) q =
        match lastVal ws q with
        | some v => some v
        | none => getItem s q := by
  induction ws with
  | nil => intro s q; simp [applyWrites, lastVal]
  | cons kv rest ih =>
    intro s q
    obtain ⟨k, x⟩ := kv
    have hstep : applyWrites s ((k, x) :: rest) =
        applyWrites (setItem k x s) rest := rfl
    rw [hstep, ih]
    cases hlv : lastVal rest q with
    | some v => simp [lastVal, hlv]
    | none =>
      rw [getItem_setItem]
      by_cases hq : q = k
      · subst hq
        simp [lastVal, hlv]
      · have hkq : (k == q) = false := by simpa using Ne.symm hq
        simp [lastVal, hlv, hkq, hq]

theorem lastVal_writesOf (q : String) (hq : q ≠ "") :
    ∀ rows : List KeyValuePair,
      lastVal (writesOf rows) q =
        ((rows.filter (fun r => trimStr r.key == q)).getLast?).map
          (fun r => r.value) := by
  intro rows
  induction rows with
  | nil => simp [writesOf, lastVal]
  | cons r rest ih =>
    by_cases hkey : trimStr r.key = q
    · have hqual : qualifies r = true := by
        simp [qualifies, hkey, hq]
      rw [show writesOf (r :: rest) =
            (trimStr r.key, r.value) :: writesOf rest from by
          simp [writesOf, List.filterMap_cons, hqual]]
      rw [show (r :: rest).filter (fun x => trimStr x.key == q) =
            r :: rest.filter (fun x => trimStr x.key == q) from by
          simp [List.filter_cons, hkey]]
      rw [List.getLast?_cons]
      cases hfl : (rest.filter (fun x => trimStr x.key == q)).getLast? with
      | none =>
        have hlv : lastVal (writesOf rest) q = none := by rw [ih, hfl]; rfl
        simp [lastVal, hlv, hkey]
      | some rl =>
        have hlv : lastVal (writesOf rest) q = some rl.value := by
          rw [ih, hfl]; rfl
        simp [lastVal, hlv]
    · have hne : (trimStr r.key == q) = false := by simp [hkey]
      rw [show (r :: rest).filter (fun x => trimStr x.key == q) =
            rest.filter (fun x => trimStr x.key == q) from by
          simp [List.filter_cons, hne]]
      by_cases hqual : qualifies r = true
      · rw [show writesOf (r :: rest) =
              (trimStr r.key, r.value) :: writesOf rest from by
            simp [writesOf, List.filterMap_cons, hqual]]
        rw [← ih]
        cases hlv : lastVal (writesOf rest) q with
        | none => simp [lastVal, hlv, hne]
        | some x => simp [lastVal, hlv]
      · rw [show writesOf (r :: rest) = writesOf rest from by
            simp [writesOf, List.filterMap_cons, hqual]]
        exact ih

/-- C8: when several rows of one save share the same non-empty trimmed
key, each is written in buffer order, so after the write loop the store
holds the value of the last such row in the buffer. -/
theorem save_lastWriteWins (rows : List KeyValuePair) (s : Store)
    (q : String) (hq : q ≠ "")
    (hdup : rows.filter (fun r => trimStr r.key == q) ≠ []) :
    getItem (saveFold rows s).1 q =
      ((rows.filter (fun r => trimStr r.key == q)).getLast?).map
        (fun r => r.value) := by
  rw [saveFold_eq]
  show getItem (applyWrites s (writesOf rows)) q = _
  rw [getItem_applyWrites, lastVal_writesOf q hq rows]
  cases hl : (rows.filter (fun r => trimStr r.key == q)).getLast? with
  | none => exact absurd (List.getLast?_eq_none_iff.mp hl) hdup
  | some rl => simp

/-- Witness for C8: two rows whose keys trim to "k"; the second row's
value "b" wins. -/
theorem save_lastWriteWins_witness :
    (("k" : String) ≠ "" ∧
      ([⟨"1", " k ", "a"⟩, ⟨"2", "k", "b"⟩] : List KeyValuePair).filter
        (fun r => trimStr r.key == "k") ≠ []) ∧
    getItem
      (saveFold [⟨"1", " k ", "a"⟩, ⟨"2", "k", "b"⟩] [("k", "z")]).1 "k" =
      some "b" := by
  have h := save_lastWriteWins [⟨"1", " k ", "a"⟩, ⟨"2", "k", "b"⟩]
    [("k", "z")] "k" (by decide) (by decide)
  exact ⟨⟨by decide, by decide⟩, by rw [h]; decide⟩

/-! Deletion. -/

theorem getItem_cons (a : String × String) (t : Store) (q : String) :
    getItem (a :: t) q = if a.1 = q then some a.2 else getItem t q := by
  by_cases h : a.1 = q <;> simp [getItem, List.find?_cons, h]

theorem getItem_removeItem (k q : String) (s : Store) :
    getItem (removeItem k s) q = if q = k then none else getItem s q := by
  induction s with
  | nil => simp [removeItem, getItem]
  | cons a t ih =>
    by_cases hak : a.1 = k
    · have hdrop : (a.1 != k) = false := by simp [hak]
      rw [show removeItem k (a :: t) = removeItem k t from by
        simp [removeItem, List.filter_cons, hdrop]]
      rw [ih, getItem_cons]
      by_cases hqk : q = k
      · simp [hqk]
      · have haq : ¬ a.1 = q := by rw [hak]; exact fun h => hqk h.symm
        simp [hqk, haq]
    · have hkeep : (a.1 != k) = true := by simp [hak]
      rw [show removeItem k (a :: t) = a :: removeItem k t from by
        simp [removeItem, List.filter_cons, hkeep]]
      rw [getItem_cons, getItem_cons, ih]
      by_cases haq : a.1 = q
      · have hqk : ¬ q = k := by rw [← haq]; exact hak
        simp [haq, hqk]
      · simp [haq]

/-- C7: `deleteItem(key)` removes exactly that key from the store (a
no-op when the key is absent), leaves every other entry unchanged,
refreshes the projection from the updated store and shows the success
notification naming the key. -/
theorem deleteItem_spec (le : String → String → Bool) (k q : String)
    (st : AppState) (hq : q ≠ k) :
    getItem (deleteItem le k st).store k = none ∧
    getItem (deleteItem le k st).store q = getItem st.store q ∧
    (k ∉ storeKeys st.store → (deleteItem le k st).store = st.store) ∧
    (deleteItem le k st).notif =
      some ⟨"Deleted \"" ++ k ++ "\"", NotifType.success⟩ ∧
    (deleteItem le k st).storedItems =
      refreshStoredItems le (ofStore (removeItem k st.store)) := by
  refine ⟨?_, ?_, ?_, rfl, rfl⟩
  · show getItem (removeItem k st.store) k = none
    rw [getItem_removeItem]
    simp
  · show getItem (removeItem k st.store) q = getItem st.store q
    rw [getItem_removeItem]
    simp [hq]
  · intro hk
    show removeItem k st.store = st.store
    unfold removeItem
    rw [List.filter_eq_self]
    intro p hp
    have hmem : p.1 ∈ storeKeys st.store := List.mem_map_of_mem _ hp
    have hne : p.1 ≠ k := fun h => hk (h ▸ hmem)
    simp [hne]

/-- Witness for C7 at the spec scenario: deleting "bar" from a store
holding `bar` and `foo` leaves only `foo`. -/
theorem deleteItem_spec_witness :
    (("foo" : String) ≠ "bar") ∧
    (getItem (deleteItem keyLe "bar"
        (⟨[], [], none, [("bar", "2"), ("foo", "1")]⟩ : AppState)).store
        "bar" = none ∧
     getItem (deleteItem keyLe "bar"
        (⟨[], [], none, [("bar", "2"), ("foo", "1")]⟩ : AppState)).store
        "foo" = some "1" ∧
     (deleteItem keyLe "bar"
        (⟨[], [], none, [("bar", "2"), ("foo", "1")]⟩ : AppState)).notif =
      some ⟨"Deleted \"bar\"", NotifType.success⟩ ∧
     (deleteItem keyLe "bar"
        (⟨[], [], none, [("bar", "2"), ("foo", "1")]⟩ : AppState)).storedItems
       = [⟨"foo", "1", 4⟩]) := by
  have h := deleteItem_spec keyLe "bar" "foo"
    (⟨[], [], none, [("bar", "2"), ("foo", "1")]⟩ : AppState) (by decide)
  refine ⟨by decide, h.1, ?_, ?_, ?_⟩
  · rw [h.2.1]; decide
  · rw [h.2.2.2.1]; decide
  · rw [h.2.2.2.2]; decide

/-! Idempotence of the write loop. -/

theorem keys_map_repl (k v : String) (s : Store) :
    storeKeys (s.map (fun p => if p.1 == k then (k, v) else p)) =
      storeKeys s := by
  unfold storeKeys
  rw [List.map_map]
  apply List.map_congr_left
  intro p _
  by_cases h : p.1 == k
  · have hk : p.1 = k := by simpa using h
    simp [Function.comp, h, hk]
  · simp [Function.comp, h]

theorem mem_storeKeys_setItem (k v q : String) (s : Store)
    (h : q ∈ storeKeys s) : q ∈ storeKeys (setItem k v s) := by
  unfold setItem
  split
  · rwa [keys_map_repl]
  · unfold storeKeys at h ⊢
    simp only [List.map_append]
    exact List.mem_append.mpr (Or.inl h)

theorem self_mem_storeKeys_setItem (k v : String) (s : Store) :
    k ∈ storeKeys (setItem k v s) := by
  unfold setItem
  split
  · next h =>
    rw [keys_map_repl]
    obtain ⟨p, hp, hpk⟩ := List.any_eq_true.mp h
    have hk : p.1 = k := by simpa using hpk
    exact hk ▸ List.mem_map_of_mem _ hp
  · unfold storeKeys
    simp

theorem mem_storeKeys_applyWrites (ws : List (String × String)) :
    ∀ (s : Store) (q : String),
      q ∈ storeKeys s → q ∈ storeKeys (applyWrites s ws) := by
  induction ws with
  | nil => intro s q h; exact h
  | cons kv rest ih =>
    intro s q h
    exact ih (setItem kv.1 kv.2 s) q (mem_storeKeys_setItem _ _ _ _ h)

theorem writes_keys_present (ws : List (String × String)) :
    ∀ (s : Store), ∀ kv ∈ ws, kv.1 ∈ storeKeys (applyWrites s ws) := by
  induction ws with
  | nil => intro s kv hkv; cases hkv
  | cons hd rest ih =>
    intro s kv hkv
    rcases List.mem_cons.mp hkv with h | h
    · subst h
      exact mem_storeKeys_applyWrites rest (setItem kv.1 kv.2 s) kv.1
        (self_mem_storeKeys_setItem _ _ _)
    · exact ih (setItem hd.1 hd.2 s) kv h

/-- What a list of writes does to one already-present pair: the pair
keeps its key and receives the last written value, if its key is written
at all. -/
def writeBack (ws : List (String × String)) (p : String × String) :
    String × String :=
  match lastVal ws p.1 with
  | some v => (p.1, v)
  | none => p

theorem setItem_eq_map_of_mem (k v : String) (s : Store)
    (h : k ∈ storeKeys s) :
    setItem k v s = s.map (fun p => if p.1 == k then (k, v) else p) := by
  unfold setItem
  rw [if_pos]
  obtain ⟨p, hp, hpk⟩ := List.mem_map.mp h
  exact List.any_eq_true.mpr ⟨p, hp, by simp [hpk]⟩

theorem applyWrites_eq_map (ws : List (String × String)) :
    ∀ s : Store, (∀ kv ∈ ws, kv.1 ∈ storeKeys s) →
      applyWrites s ws = s.map (writeBack ws) := by
  induction ws with
  | nil =>
    intro s _
    rw [show s.map (writeBack []) = s.map (fun p => p) from
          List.map_congr_left fun p _ => rfl,
        List.map_id']
    rfl
  | cons kv rest ih =>
    intro s hks
    obtain ⟨k, x⟩ := kv
    have hk : k ∈ storeKeys s := hks (k, x) (by simp)
    have hstep : applyWrites s ((k, x) :: rest) =
        applyWrites (setItem k x s) rest := rfl
    rw [hstep, setItem_eq_map_of_mem k x s hk,
        ih (s.map (fun p => if p.1 == k then (k, x) else p))
          (fun kv hkv => by
            rw [keys_map_repl]
            exact hks kv (List.mem_cons.mpr (Or.inr hkv))),
        List.map_map]
    apply List.map_congr_left
    intro p _
    by_cases hpk : p.1 = k
    · have hbeq : (p.1 == k) = true := by simp [hpk]
      cases hlv : lastVal rest k with
      | some v =>
        simp [Function.comp, writeBack, lastVal, hbeq, hpk, hlv]
      | none =>
        simp [Function.comp, writeBack, lastVal, hbeq, hpk, hlv]
    · have hbeq : (p.1 == k) = false := by simp [hpk]
      have hbeq2 : (k == p.1) = false := by
        simpa using fun h : k = p.1 => hpk h.symm
      cases hlv : lastVal rest p.1 with
      | some v =>
        simp [Function.comp, writeBack, lastVal, hbeq, hbeq2, hlv]
      | none =>
        simp [Function.comp, writeBack, lastVal, hbeq, hbeq2, hlv]

theorem lastVal_eq_none (ws : List (String × String)) (q : String) :
    lastVal ws q = none ↔ ∀ kv ∈ ws, kv.1 ≠ q := by
  induction ws with
  | nil => simp [lastVal]
  | cons kv rest ih =>
    obtain ⟨k, v⟩ := kv
    constructor
    · intro h
      cases hlv : lastVal rest q with
      | some x =>
        rw [show lastVal ((k, v) :: rest) q = some x from by
          simp [lastVal, hlv]] at h
        cases h
      | none =>
        cases hkq : (k == q) with
        | true =>
          rw [show lastVal ((k, v) :: rest) q = some v from by
            simp [lastVal, hlv, hkq]] at h
          cases h
        | false =>
          intro kv hkv
          rcases List.mem_cons.mp hkv with hh | hh
          · subst hh
            simpa using hkq
          · exact ih.mp hlv kv hh
    · intro h
      have hk : (k == q) = false := by simpa using h (k, v) (by simp)
      simp [lastVal, ih.mpr fun kv hkv => h kv (by simp [hkv]), hk]

theorem setItem_pairs (k x : String) (s : Store) :
    ∀ p ∈ setItem k x s, p.1 = k → p = (k, x) := by
  intro p hp hpk
  unfold setItem at hp
  split at hp
  · obtain ⟨p0, hp0, hrepl⟩ := List.mem_map.mp hp
    by_cases h0 : (p0.1 == k) = true
    · rw [if_pos h0] at hrepl
      exact hrepl.symm
    · rw [if_neg (by simpa using h0)] at hrepl
      exfalso
      apply (show ¬ p0.1 = k by simpa using h0)
      rw [hrepl]
      exact hpk
  · next h =>
    rcases List.mem_append.mp hp with hmem | hmem
    · exfalso
      exact h (List.any_eq_true.mpr ⟨p, hmem, by simp [hpk]⟩)
    · simpa using hmem

theorem applyWrites_untouched (ws : List (String × String)) :
    ∀ (s : Store) (q x : String),
      (∀ p ∈ s, p.1 = q → p = (q, x)) →
      (∀ kv ∈ ws, kv.1 ≠ q) →
      ∀ p ∈ applyWrites s ws, p.1 = q → p = (q, x) := by
  induction ws with
  | nil => intro s q x hs _ p hp hpq; exact hs p hp hpq
  | cons kv rest ih =>
    intro s q x hs hw p hp hpq
    obtain ⟨k, y⟩ := kv
    have hk : k ≠ q := hw (k, y) (by simp)
    refine ih (setItem k y s) q x ?_
      (fun kv hkv => hw kv (List.mem_cons.mpr (Or.inr hkv))) p hp hpq
    intro p' hp' hp'q
    unfold setItem at hp'
    split at hp'
    · obtain ⟨p0, hp0, hrepl⟩ := List.mem_map.mp hp'
      by_cases h0 : (p0.1 == k) = true
      · rw [if_pos h0] at hrepl
        exfalso
        apply hk
        rw [← hrepl] at hp'q
        exact hp'q
      · rw [if_neg (by simpa using h0)] at hrepl
        subst hrepl
        exact hs p0 hp0 hp'q
    · rcases List.mem_append.mp hp' with hmem | hmem
      · exact hs p' hmem hp'q
      · exfalso
        apply hk
        have hpkv : p' = (k, y) := by simpa using hmem
        rw [hpkv] at hp'q
        exact hp'q

theorem applyWrites_final_values (ws : List (String × String)) :
    ∀ (s : Store), ∀ p ∈ applyWrites s ws,
      ∀ v, lastVal ws p.1 = some v → p.2 = v := by
  induction ws with
  | nil => intro s p hp v hv; simp [lastVal] at hv
  | cons kv rest ih =>
    intro s p hp v hv
    obtain ⟨k, x⟩ := kv
    cases hlv : lastVal rest p.1 with
    | some v0 =>
      have hv0 : v0 = v := by
        rw [show lastVal ((k, x) :: rest) p.1 = some v0 from by
          simp [lastVal, hlv]] at hv
        exact Option.some.inj hv
      exact hv0 ▸ ih (setItem k x s) p hp v0 hlv
    | none =>
      rw [show lastVal ((k, x) :: rest) p.1 =
            (if k == p.1 then some x else none) from by
          simp [lastVal, hlv]] at hv
      by_cases hkp : (k == p.1) = true
      · rw [if_pos hkp] at hv
        have hx : x = v := Option.some.inj hv
        have hkeq : k = p.1 := by simpa using hkp
        have hpair := applyWrites_untouched rest (setItem k x s) p.1 x
          (fun p' hp' hq => by
            have := setItem_pairs k x s p' hp' (by rw [hkeq]; exact hq)
            rw [← hkeq]
            exact this)
          (lastVal_eq_none rest p.1 |>.mp hlv) p hp rfl
        have hsnd : p.2 = x := by rw [congrArg Prod.snd hpair]
        exact hsnd.trans hx
      · rw [if_neg hkp] at hv
        cases hv

theorem applyWrites_idempotent (ws : List (String × String)) (s : Store) :
    applyWrites (applyWrites s ws) ws = applyWrites s ws := by
  rw [applyWrites_eq_map ws (applyWrites s ws)
        (fun kv hkv => writes_keys_present ws s kv hkv)]
  have hfix : ∀ p ∈ applyWrites s ws, writeBack ws p = p := by
    intro p hp
    unfold writeBack
    cases hlv : lastVal ws p.1 with
    | none => rfl
    | some v =>
      have hv := applyWrites_final_values ws s p hp v hlv
      rw [← hv]
  rw [List.map_congr_left hfix, List.map_id']

/-- C6: running the write loop of `save()` a second time from the same
buffer leaves the store exactly as after the first run (last-write-wins
makes the writes idempotent). -/
theorem saveFold_idempotent (rows : List KeyValuePair) (s : Store) :
    (saveFold rows (saveFold rows s).1).1 = (saveFold rows s).1 := by
  simp only [saveFold_eq]
  exact applyWrites_idempotent (writesOf rows) s

/-! The refresh projection. -/

theorem charListLe_total : ∀ xs ys : List Char,
    charListLe xs ys = true ∨ charListLe ys xs = true := by
  intro xs
  induction xs with
  | nil => intro ys; left; rfl
  | cons a as ih =>
    intro ys
    cases ys with
    | nil => right; rfl
    | cons b bs =>
      by_cases h1 : a.toNat < b.toNat
      · left; simp [charListLe, h1]
      · by_cases h2 : b.toNat < a.toNat
        · right; simp [charListLe, h2]
        · rcases ih bs with h | h
          · left; simp [charListLe, h1, h2, h]
          · right; simp [charListLe, h1, h2, h]

theorem charListLe_trans : ∀ xs ys zs : List Char,
    charListLe xs ys = true → charListLe ys zs = true →
      charListLe xs zs = true := by
  intro xs
  induction xs with
  | nil => intro ys zs _ _; rfl
  | cons a as ih =>
    intro ys zs hxy hyz
    cases ys with
    | nil => simp [charListLe] at hxy
    | cons b bs =>
      cases zs with
      | nil => simp [charListLe] at hyz
      | cons c cs =>
        rcases Nat.lt_trichotomy a.toNat b.toNat with h1 | h1 | h1
        · rcases Nat.lt_trichotomy b.toNat c.toNat with h2 | h2 | h2
          · simp [charListLe, show a.toNat < c.toNat by omega]
          · simp [charListLe, show a.toNat < c.toNat by omega]
          · rw [show charListLe (b :: bs) (c :: cs) =
                  (if b.toNat < c.toNat then true
                   else if c.toNat < b.toNat then false
                   else charListLe bs cs) from rfl,
                if_neg (by omega), if_pos (by omega)] at hyz
            cases hyz
        · rw [show charListLe (a :: as) (b :: bs) =
                (if a.toNat < b.toNat then true
                 else if b.toNat < a.toNat then false
                 else charListLe as bs) from rfl,
              if_neg (by omega), if_neg (by omega)] at hxy
          rcases Nat.lt_trichotomy b.toNat c.toNat with h2 | h2 | h2
          · simp [charListLe, show a.toNat < c.toNat by omega]
          · rw [show charListLe (b :: bs) (c :: cs) =
                  (if b.toNat < c.toNat then true
                   else if c.toNat < b.toNat then false
                   else charListLe bs cs) from rfl,
                if_neg (by omega), if_neg (by omega)] at hyz
            rw [show charListLe (a :: as) (c :: cs) =
                  (if a.toNat < c.toNat then true
                   else if c.toNat < a.toNat then false
                   else charListLe as cs) from rfl,
                if_neg (by omega), if_neg (by omega)]
            exact ih bs cs hxy hyz
          · rw [show charListLe (b :: bs) (c :: cs) =
                  (if b.toNat < c.toNat then true
                   else if c.toNat < b.toNat then false
                   else charListLe bs cs) from rfl,
                if_neg (by omega), if_pos (by omega)] at hyz
            cases hyz
        · rw [show charListLe (a :: as) (b :: bs) =
                (if a.toNat < b.toNat then true
                 else if b.toNat < a.toNat then false
                 else charListLe as bs) from rfl,
              if_neg (by omega), if_pos (by omega)] at hxy
          cases hxy

theorem keyLe_trans (a b c : String) (h1 : keyLe a b = true)
    (h2 : keyLe b c = true) : keyLe a c = true :=
  charListLe_trans a.data b.data c.data h1 h2

theorem keyLe_total (a b : String) : keyLe a b = true ∨ keyLe b a = true :=
  charListLe_total a.data b.data

theorem buildItems_ofStore (u : Store) :
    ∀ s : Store,
      buildItems ⟨List.length s, fun i => (s[i]?).map (fun p => p.1),
          getItem u⟩ =
        s.map (fun p => mkEntry (getItem u) p.1) := by
  intro s
  induction s with
  | nil => rfl
  | cons a t ih =>
    show (List.range (t.length + 1)).filterMap
        (fun i => (((a :: t)[i]?).map (fun p => p.1)).map
          (mkEntry (getItem u))) =
      (a :: t).map (fun p => mkEntry (getItem u) p.1)
    rw [List.range_succ_eq_map, List.filterMap_cons, List.filterMap_map]
    have hcomp : ((fun i => (((a :: t)[i]?).map (fun p => p.1)).map
          (mkEntry (getItem u))) ∘ Nat.succ) =
        (fun i => ((t[i]?).map (fun p => p.1)).map (mkEntry (getItem u))) := by
      funext i
      simp [Function.comp]
    rw [hcomp]
    have hih : (List.range t.length).filterMap
        (fun i => ((t[i]?).map (fun p => p.1)).map (mkEntry (getItem u))) =
        t.map (fun p => mkEntry (getItem u) p.1) := ih
    rw [hih]
    simp

theorem getItem_of_nodup (s : Store) (hnd : (storeKeys s).Nodup) :
    ∀ p ∈ s, getItem s p.1 = some p.2 := by
  induction s with
  | nil => intro p hp; cases hp
  | cons a t ih =>
    intro p hp
    have hkeys : storeKeys (a :: t) = a.1 :: storeKeys t := rfl
    rw [hkeys] at hnd
    have hnotin : a.1 ∉ storeKeys t := (List.nodup_cons.mp hnd).1
    have hnd' : (storeKeys t).Nodup := (List.nodup_cons.mp hnd).2
    rcases List.mem_cons.mp hp with h | h
    · subst h
      rw [getItem_cons]
      simp
    · rw [getItem_cons]
      by_cases hap : a.1 = p.1
      · exfalso
        apply hnotin
        rw [hap]
        exact List.mem_map_of_mem _ h
      · rw [if_neg hap]
        exact ih hnd' p h

/-- C4: after any `refresh()`, the projection is exactly the store's
key/value contents (a permutation of the association list), sorted
ascending by the key comparison, with one entry per store entry; the
previous projection plays no role. -/
theorem refresh_sorted_projection (le : String → String → Bool)
    (st : AppState)
    (htr : ∀ a b c : String, le a b = true → le b c = true → le a c = true)
    (hto : ∀ a b : String, le a b = true ∨ le b a = true)
    (hnd : (storeKeys st.store).Nodup) :
    ((doRefresh le st).storedItems.map
        (fun it => (it.key, it.value))).Perm st.store ∧
    List.Sorted (itemLE le) (doRefresh le st).storedItems ∧
    (doRefresh le st).storedItems.length = st.store.length := by
  letI : IsTrans LocalStorageItem (itemLE le) :=
    ⟨fun a b c => htr a.key b.key c.key⟩
  letI : IsTotal LocalStorageItem (itemLE le) :=
    ⟨fun a b => hto a.key b.key⟩
  have hitems : (doRefresh le st).storedItems =
      List.insertionSort (itemLE le) (buildItems (ofStore st.store)) := rfl
  have hbuild : buildItems (ofStore st.store) =
      st.store.map (fun p => mkEntry (getItem st.store) p.1) :=
    buildItems_ofStore st.store st.store
  have hperm : ((doRefresh le st).storedItems.map
      (fun it => (it.key, it.value))).Perm st.store := by
    have hps : ((doRefresh le st).storedItems).Perm
        (buildItems (ofStore st.store)) := by
      rw [hitems]
      exact List.perm_insertionSort _ _
    have hmap := hps.map (fun it : LocalStorageItem => (it.key, it.value))
    rw [hbuild, List.map_map] at hmap
    have hcong : st.store.map
        ((fun it : LocalStorageItem => (it.key, it.value)) ∘
          (fun p => mkEntry (getItem st.store) p.1)) =
        st.store.map (fun p => p) := by
      apply List.map_congr_left
      intro p hp
      have hv := getItem_of_nodup st.store hnd p hp
      simp [Function.comp, mkEntry, hv]
    rw [hcong, List.map_id'] at hmap
    exact hmap
  refine ⟨hperm, ?_, ?_⟩
  · rw [hitems]
    exact List.sorted_insertionSort _ _
  · have hlen := hperm.length_eq
    simpa using hlen

/-- Witness for C4 at the spec scenario: store `foo=1, bar=2` refreshes
to the projection ordered `bar`, `foo`. -/
theorem refresh_sorted_projection_witness :
    (storeKeys [("foo", "1"), ("bar", "2")]).Nodup ∧
    (((doRefresh keyLe (⟨[], [], none, [("foo", "1"), ("bar", "2")]⟩ :
          AppState)).storedItems.map (fun it => (it.key, it.value))).Perm
        [("foo", "1"), ("bar", "2")] ∧
     List.Sorted (itemLE keyLe)
       (doRefresh keyLe (⟨[], [], none, [("foo", "1"), ("bar", "2")]⟩ :
          AppState)).storedItems ∧
     (doRefresh keyLe (⟨[], [], none, [("foo", "1"), ("bar", "2")]⟩ :
          AppState)).storedItems.length = 2) := by
  have h := refresh_sorted_projection keyLe
    (⟨[], [], none, [("foo", "1"), ("bar", "2")]⟩ : AppState)
    keyLe_trans keyLe_total (by decide)
  exact ⟨by decide, h.1, h.2.1, by rw [h.2.2]; rfl⟩

/-- C5: every entry of the projection carries as its `size` the UTF-8
byte length of its key concatenated with its value. -/
theorem item_size_utf8 (le : String → String → Bool) (iface : StoreIface)
    (item : LocalStorageItem) (h : item ∈ refreshStoredItems le iface) :
    item.size = (item.key ++ item.value).utf8ByteSize := by
  unfold refreshStoredItems at h
  have h2 : item ∈ buildItems iface := (List.mem_insertionSort _).mp h
  obtain ⟨i, hi, hsome⟩ := List.mem_filterMap.mp h2
  cases hk : iface.keyAt i with
  | none => rw [hk] at hsome; cases hsome
  | some key =>
    rw [hk] at hsome
    have hit : mkEntry iface.read key = item := by simpa using hsome
    rw [← hit]
    rfl

/-- Witness for C5: the entry for key "a", value "bb" has size 3. -/
theorem item_size_utf8_witness :
    ((⟨"a", "bb", 3⟩ : LocalStorageItem) ∈
        refreshStoredItems keyLe (ofStore [("a", "bb")])) ∧
    (3 : Nat) = (("a" ++ "bb" : String)).utf8ByteSize :=
  ⟨by decide,
   item_size_utf8 keyLe (ofStore [("a", "bb")]) ⟨"a", "bb", 3⟩ (by decide)⟩

/-- C10: the refresh loop is total over the store interface's
Option-returning lookups: every index whose key lookup succeeds
contributes an entry, and an absent value is recorded as the empty
string. -/
theorem refresh_total_spec (le : String → String → Bool)
    (iface : StoreIface) (i : Nat) (k : String)
    (hi : i < iface.count) (hk : iface.keyAt i = some k) :
    ∃ item ∈ refreshStoredItems le iface,
      item.key = k ∧ item.value = (iface.read k).getD "" ∧
      (iface.read k = none → item.value = "") := by
  refine ⟨mkEntry iface.read k, ?_, rfl, rfl, ?_⟩
  · unfold refreshStoredItems
    apply (List.mem_insertionSort _).mpr
    exact List.mem_filterMap.mpr ⟨i, List.mem_range.mpr hi, by rw [hk]; rfl⟩
  · intro hnone
    show (iface.read k).getD "" = ""
    rw [hnone]
    rfl

/-- Witness for C10: a one-slot interface whose value lookup is always
absent still yields an entry, with the empty string as its value. -/
theorem refresh_total_spec_witness :
    (0 < (⟨1, fun _ => some "k", fun _ => none⟩ : StoreIface).count ∧
      (⟨1, fun _ => some "k", fun _ => none⟩ : StoreIface).keyAt 0 =
        some "k") ∧
    (∃ item ∈ refreshStoredItems keyLe
        (⟨1, fun _ => some "k", fun _ => none⟩ : StoreIface),
      item.key = "k" ∧
      item.value =
        ((⟨1, fun _ => some "k", fun _ => none⟩ : StoreIface).read "k").getD
          "" ∧
      ((⟨1, fun _ => some "k", fun _ => none⟩ : StoreIface).read "k" = none →
        item.value = "")) :=
  ⟨⟨by decide, rfl⟩,
   refresh_total_spec keyLe
     (⟨1, fun _ => some "k", fun _ => none⟩ : StoreIface) 0 "k"
     (by decide) rfl⟩

end LocalVault
